import Mathlib

/-!
Verification of the HTML-to-Falco-DSL code generator (src/index.js).

The first part of this file is a shallow embedding of the generator: the
input DOM tree produced by the external parser is modelled by `Node`, and
every helper of `htmlToFalco` (escapeString, toCamelCase, mapAttributes,
processNode, processDOM) is translated into an executable Lean function.
JavaScript strings are modelled by `String` (lists of characters);
single-character global regex replacement is modelled by `replaceCharL`.
The second part states and proves the specification claims.
-/

namespace HtmlToFalco

/-- Node model of the htmlparser2 DOM consumed by the generator: a tagged
union over text nodes (`node.type === 'text'`, carrying `node.data`),
script nodes (`node.type === 'script'`, carrying `node.attribs` and
`node.children`), ordinary elements (`node.type === 'tag'`, carrying
`node.name`, `node.attribs`, `node.children`), and any other node kind
(comments, directives, ...), which the generator skips. An absent
attribute map (`node.attribs || {}`) is modelled by the empty list. -/
inductive Node where
  | text (data : String)
  | script (attribs : List (String × String)) (children : List Node)
  | tag (name : String) (attribs : List (String × String)) (children : List Node)
  | other

/-- Replacement of every occurrence of the character `c` by the character
list `r`, the semantics of the JavaScript `str.replace(/c/g, r)` calls of
src/index.js for a single-character pattern. -/
def replaceCharL (c : Char) (r : List Char) : List Char → List Char
  | [] => []
  | x :: xs => (if x = c then r else [x]) ++ replaceCharL c r xs

/-- Transliteration of `escapeString` (src/index.js lines 26-32): four
global replacements applied in order — backslash, double quote, newline,
carriage return. -/
def escapeString (s : String) : String :=
  String.mk (replaceCharL '\r' ['\\', 'r']
    (replaceCharL '\n' ['\\', 'n']
      (replaceCharL '"' ['\\', '"']
        (replaceCharL '\\' ['\\', '\\'] s.data))))

/-- Uppercasing of a lowercase ASCII letter, the effect of JavaScript
`char.toUpperCase()` on the characters matched by the `[a-z]` group of
`toCamelCase`; every other character is left unchanged. -/
def upperAscii : Char → Char
  | 'a' => 'A'
  | 'b' => 'B'
  | 'c' => 'C'
  | 'd' => 'D'
  | 'e' => 'E'
  | 'f' => 'F'
  | 'g' => 'G'
  | 'h' => 'H'
  | 'i' => 'I'
  | 'j' => 'J'
  | 'k' => 'K'
  | 'l' => 'L'
  | 'm' => 'M'
  | 'n' => 'N'
  | 'o' => 'O'
  | 'p' => 'P'
  | 'q' => 'Q'
  | 'r' => 'R'
  | 's' => 'S'
  | 't' => 'T'
  | 'u' => 'U'
  | 'v' => 'V'
  | 'w' => 'W'
  | 'x' => 'X'
  | 'y' => 'Y'
  | 'z' => 'Z'
  | c => c

/-- Character-list recursion behind `toCamelCase`: the left-to-right global
replacement of the regex pattern `-([a-z])` (global flag) by the uppercased captured letter
(src/index.js lines 17-19). A hyphen not followed by a lowercase ASCII
letter does not match the regex and is kept, scanning resuming at the next
character. -/
def camelAux : List Char → List Char
  | [] => []
  | '-' :: c :: rest =>
      if 'a' ≤ c ∧ c ≤ 'z' then upperAscii c :: camelAux rest
      else '-' :: camelAux (c :: rest)
  | c :: rest => c :: camelAux rest

/-- Transliteration of `toCamelCase` (src/index.js lines 17-19). -/
def toCamelCase (s : String) : String :=
  String.mk (camelAux s.data)

/-- Boolean attribute set of `mapAttributes` (src/index.js lines 42-47). -/
def booleanAttrs : List String :=
  ["allowfullscreen", "async", "autofocus", "autoplay", "checked", "controls", "default",
   "defer", "disabled", "formnovalidate", "hidden", "ismap", "itemscope", "loop",
   "multiple", "muted", "nomodule", "novalidate", "open", "readonly", "required",
   "reversed", "selected"]

/-- Test of the regex `/^on[a-z]+/` used for event-handler attributes in
`mapAttributes` (src/index.js line 53): the name starts with `on` followed
by at least one lowercase ASCII letter. -/
def startsOnEvent (s : String) : Bool :=
  match s.data with
  | 'o' :: 'n' :: c :: _ => decide ('a' ≤ c ∧ c ≤ 'z')
  | _ => false

/-- Emission of a single attribute entry, the loop body of `mapAttributes`
(src/index.js lines 48-58): camel-case the key when it contains a hyphen,
then emit a bare identifier for boolean attributes and an identifier with
an escaped quoted value otherwise (the event-handler branch emits the same
shape as the generic branch). -/
def mapAttribute (kv : String × String) : String :=
  let attrKey := if kv.1.data.contains '-' then toCamelCase kv.1 else kv.1
  if kv.1 ∈ booleanAttrs then "_" ++ attrKey ++ "_"
  else if startsOnEvent kv.1 then "_" ++ attrKey ++ "_ \"" ++ escapeString kv.2 ++ "\""
  else "_" ++ attrKey ++ "_ \"" ++ escapeString kv.2 ++ "\""

/-- Transliteration of `mapAttributes` (src/index.js lines 39-61): one
emitted fragment per attribute entry, in input order. -/
def mapAttributes (attribs : List (String × String)) : List String :=
  attribs.map mapAttribute

/-- Indent unit of the generator (`indentSize`, src/index.js line 10). -/
def indentSize : Nat := 4

/-- Run of `n` space characters, JavaScript `' '.repeat(n)`. -/
def spaces (n : Nat) : String :=
  String.mk (List.replicate n ' ')

/-- Semantics of JavaScript `Array.prototype.join(sep)`. -/
def joinSep (sep : String) : List String → String
  | [] => ""
  | [x] => x
  | x :: xs => x ++ sep ++ joinSep sep xs

/-- Whitespace recognised by JavaScript `String.prototype.trim`: ASCII
whitespace, NBSP, the Unicode space separators, line and paragraph
separators, and the BOM. -/
def isJsWhitespace (c : Char) : Bool :=
  c.val = 9 || c.val = 10 || c.val = 11 || c.val = 12 || c.val = 13 || c.val = 32 ||
  c.val = 160 || c.val = 5760 || (8192 ≤ c.val && c.val ≤ 8202) || c.val = 8232 ||
  c.val = 8233 || c.val = 8239 || c.val = 8287 || c.val = 12288 || c.val = 65279

/-- Semantics of JavaScript `str.trim()`: leading and trailing whitespace
characters removed. -/
def jsTrim (s : String) : String :=
  String.mk (((s.data.dropWhile isJsWhitespace).reverse.dropWhile isJsWhitespace).reverse)

/-- Apostrophe character, the replacement used for double quotes inside
script bodies. -/
def apos : Char := Char.ofNat 39

/-- Emission of one child of a script node, the callback of
`node.children.map` in the script branch (src/index.js lines 77-83): a
text child is trimmed, its double quotes are replaced by apostrophes, and
it is wrapped in `_text "..."` unless the trimmed content is empty; every
non-text child yields the empty string. -/
def scriptChild : Node → String
  | Node.text d =>
      let text := String.mk (replaceCharL '"' [apos] (jsTrim d).data)
      if text = "" then "" else "_text \"" ++ text ++ "\""
  | _ => ""

/-- Attribute-list fragment appended after the element identifier, the
`attributes.length > 0` branches shared by the script and tag branches of
`processNode` (src/index.js lines 93-97 and 112-116). -/
def attrPart (attribs : List (String × String)) : String :=
  let attributes := mapAttributes attribs
  if attributes.length > 0 then " [ " ++ joinSep "; " attributes ++ " ]" else " []"

/-- Emission of a text node, the `node.type === 'text'` branch of
`processNode` (src/index.js lines 70-73). -/
def textEmit (d : String) : String :=
  let text := jsTrim d
  if text = "" then "" else "_text \"" ++ escapeString text ++ "\""

/-- Emission of a script node, the `node.type === 'script'` branch of
`processNode` (src/index.js lines 74-99): map the children through
`scriptChild`, drop the empty results, indent each survivor by one indent
unit, and assemble `_script <attrs> <body>`. -/
def scriptEmit (attribs : List (String × String)) (children : List Node) : String :=
  let kids := ((children.map scriptChild).filter (fun c => c ≠ "")).map
    (fun c => spaces indentSize ++ c)
  let scriptContent := if kids.length > 0 then "[ \n" ++ joinSep "\n" kids ++ " ]" else "[]"
  "_script" ++ attrPart attribs ++ " " ++ scriptContent

/-- Void (self-enclosing) element set of `processNode` (src/index.js
line 103). -/
def selfEnclosingTags : List String :=
  ["link", "meta", "input", "img", "br", "hr", "area", "base", "col", "embed",
   "source", "track", "wbr"]

/-- Assembly of a tag emission from the already-processed child emissions
`outs`, the `node.type === 'tag'` branch of `processNode` (src/index.js
lines 100-129): drop empty child emissions, indent each survivor by
`(indentLevel + 2) * indentSize` spaces (the callback increments the level
before adding one), attach the attribute fragment, and return the element
without any child list for a void tag, with a bracketed child block when a
child survived, and with `[]` otherwise. -/
def tagAssemble (name : String) (attribs : List (String × String))
    (outs : List String) (indentLevel : Nat) : String :=
  let kids := (outs.filter (fun c => c ≠ "")).map
    (fun c => spaces ((indentLevel + 2) * indentSize) ++ c)
  let element := "_" ++ name ++ attrPart attribs
  if name ∈ selfEnclosingTags then element
  else if kids.length > 0 then
    element ++ " [" ++ spaces ((indentLevel + 1) * indentSize) ++ "\n" ++
      joinSep "\n" kids ++ " ]"
  else element ++ " []"

mutual

/-- Transliteration of `processNode` (src/index.js lines 69-133): emission
of one node at a given indent level; children of a tag are processed
recursively at level `indentLevel + 1`. Unrecognised node kinds emit the
empty string. -/
def processNode : Node → Nat → String
  | Node.text d, _ => textEmit d
  | Node.script attribs children, _ => scriptEmit attribs children
  | Node.tag name attribs children, indentLevel =>
      tagAssemble name attribs (processChildren children (indentLevel + 1)) indentLevel
  | Node.other, _ => ""

/-- Emission of a list of sibling nodes at one indent level, the
`node.children.map(child => processNode(child, indentLevel + 1))` call of
the tag branch. -/
def processChildren : List Node → Nat → List String
  | [], _ => []
  | c :: cs, lvl => processNode c lvl :: processChildren cs lvl

end

/-- Transliteration of `processDOM` (src/index.js lines 140-142), the
entry point of the generator on the parsed tree: process every root child
at level 0, drop the empty emissions, and join with newlines. -/
def processDOM (doc : List Node) : String :=
  joinSep "\n" ((doc.map (fun child => processNode child 0)).filter (fun c => c ≠ ""))

/-- Concatenation of the images of a character-level substitution, used to
state the per-character characterisation of `escapeString`. -/
def concatMap (f : Char → List Char) : List Char → List Char
  | [] => []
  | x :: xs => f x ++ concatMap f xs

/-- Per-character substitution described by the spec for the string
escaper: backslash, double quote, newline and carriage return receive a
two-character escape, every other character is unchanged. -/
def escSpecChar (c : Char) : List Char :=
  if c = '\\' then ['\\', '\\']
  else if c = '"' then ['\\', '"']
  else if c = '\n' then ['\\', 'n']
  else if c = '\r' then ['\\', 'r']
  else [c]

/-- Absence of both angle-bracket characters from a string. -/
def strAngleFree (s : String) : Prop :=
  '<' ∉ s.data ∧ '>' ∉ s.data

instance (s : String) : Decidable (strAngleFree s) :=
  inferInstanceAs (Decidable (_ ∧ _))

/-- Absence of angle brackets from every attribute name and value of an
attribute map. -/
def attrsAngleFree (attribs : List (String × String)) : Prop :=
  ∀ kv ∈ attribs, strAngleFree kv.1 ∧ strAngleFree kv.2

instance (attribs : List (String × String)) : Decidable (attrsAngleFree attribs) :=
  inferInstanceAs (Decidable (∀ kv ∈ attribs, _ ∧ _))

/-- Absence of angle brackets from every string carried by a tree: text
data, tag names, attribute names and attribute values. -/
inductive NodeAngleFree : Node → Prop where
  | text : ∀ {d}, strAngleFree d → NodeAngleFree (Node.text d)
  | script : ∀ {attribs children}, attrsAngleFree attribs →
      (∀ c ∈ children, NodeAngleFree c) → NodeAngleFree (Node.script attribs children)
  | tag : ∀ {name attribs children}, strAngleFree name → attrsAngleFree attribs →
      (∀ c ∈ children, NodeAngleFree c) → NodeAngleFree (Node.tag name attribs children)
  | other : NodeAngleFree Node.other

mutual

/-- Big-step emission relation mirroring the recursion of `processNode`:
a node at an indent level emits a string. The relation holding of the
function's result for every tree witnesses that the recursive traversal
terminates on every tree with a finite derivation. -/
inductive EmitsNode : Node → Nat → String → Prop where
  | text : ∀ (d : String) (lvl : Nat), EmitsNode (Node.text d) lvl (textEmit d)
  | script : ∀ (attribs : List (String × String)) (children : List Node) (lvl : Nat),
      EmitsNode (Node.script attribs children) lvl (scriptEmit attribs children)
  | tag : ∀ (name : String) (attribs : List (String × String)) (children : List Node)
      (lvl : Nat) (outs : List String), EmitsList children (lvl + 1) outs →
      EmitsNode (Node.tag name attribs children) lvl (tagAssemble name attribs outs lvl)
  | other : ∀ (lvl : Nat), EmitsNode Node.other lvl ""

/-- Big-step emission relation for a list of sibling nodes. -/
inductive EmitsList : List Node → Nat → List String → Prop where
  | nil : ∀ (lvl : Nat), EmitsList [] lvl []
  | cons : ∀ {n : Node} {ns : List Node} {lvl : Nat} {s : String} {ss : List String},
      EmitsNode n lvl s → EmitsList ns lvl ss → EmitsList (n :: ns) lvl (s :: ss)

end

/-- Replacement of every double quote of a string by an apostrophe, the
transformation the spec prescribes for the content of a script text
child. -/
def quoteToApos (s : String) : String :=
  String.mk (s.data.map (fun c => if c = '"' then apos else c))

/-- Script-body entry described by the claim for one child of a script
node: a text child whose trimmed content is non-empty contributes a
quoted `_text` entry whose content is the trimmed text with double quotes
replaced by apostrophes; every other child contributes nothing. -/
def claimScriptEntry : Node → Option String
  | Node.text d =>
      if jsTrim d = "" then none
      else some ("_text \"" ++ quoteToApos (jsTrim d) ++ "\"")
  | _ => none

/-- Character-list form of the camel-casing described by the claim for
hyphenated attribute names: every hyphen is deleted and the character
following it is uppercased. -/
def specCamelAux : List Char → List Char
  | [] => []
  | '-' :: c :: rest => upperAscii c :: specCamelAux rest
  | c :: rest => c :: specCamelAux rest

/-- Camel-casing described by the claim: delete each hyphen and uppercase
the character that follows it. -/
def specCamelCase (s : String) : String :=
  String.mk (specCamelAux s.data)

/-- Well-formed kebab-case shape: every hyphen of the character list is
immediately followed by a lowercase ASCII letter. -/
def kebabOk : List Char → Bool
  | [] => true
  | ['-'] => false
  | '-' :: c :: rest => decide ('a' ≤ c ∧ c ≤ 'z') && kebabOk rest
  | _ :: rest => kebabOk rest

theorem replaceCharL_append (c : Char) (r : List Char) (a b : List Char) :
    replaceCharL c r (a ++ b) = replaceCharL c r a ++ replaceCharL c r b := by
  induction a with
  | nil => rfl
  | cons x xs ih => simp [replaceCharL, ih]

theorem escList_eq (l : List Char) :
    replaceCharL '\r' ['\\', 'r'] (replaceCharL '\n' ['\\', 'n']
      (replaceCharL '"' ['\\', '"'] (replaceCharL '\\' ['\\', '\\'] l))) =
    concatMap escSpecChar l := by
  induction l with
  | nil => rfl
  | cons x xs ih =>
    have h1 : replaceCharL '\\' ['\\', '\\'] (x :: xs) =
        (if x = '\\' then ['\\', '\\'] else [x]) ++ replaceCharL '\\' ['\\', '\\'] xs := rfl
    rw [h1, replaceCharL_append, replaceCharL_append, replaceCharL_append, ih]
    have h2 : concatMap escSpecChar (x :: xs) =
        escSpecChar x ++ concatMap escSpecChar xs := rfl
    rw [h2]
    congr 1
    by_cases hb : x = '\\'
    · subst hb; rfl
    · by_cases hq : x = '"'
      · subst hq; rfl
      · by_cases hn : x = '\n'
        · subst hn; rfl
        · by_cases hr : x = '\r'
          · subst hr; rfl
          · simp [replaceCharL, escSpecChar, hb, hq, hn, hr]

/-- C5: for every string `s`, `escapeString s` is the result of the four
ordered substitutions backslash, double quote, newline, carriage return,
which amounts to substituting each character independently — backslash
becomes a doubled backslash, a double quote becomes backslash-quote, a
newline becomes the two characters backslash-`n`, a carriage return
becomes backslash-`r`, and every other character of `s` appears
unchanged; the function is total. -/
theorem escapeString_char_spec (s : String) :
    escapeString s = String.mk (concatMap escSpecChar s.data) := by
  unfold escapeString
  rw [escList_eq]

/-- C6: the escaper is not idempotent — a string containing a backslash
(or a double quote) is escaped differently the second time around. -/
theorem escapeString_not_idempotent :
    ∃ s : String, ('\\' ∈ s.data ∨ '"' ∈ s.data) ∧
      escapeString (escapeString s) ≠ escapeString s :=
  ⟨"\\", by decide⟩

/-- C3: an attribute whose original name is in the fixed boolean set is
emitted as the bare identifier `_<camelCasedName>_` with no quoted value,
for every attribute value; the camel-cased form of such a name is the
name itself. -/
theorem booleanAttr_emission (k v : String) (h : k ∈ booleanAttrs) :
    mapAttribute (k, v) = "_" ++ toCamelCase k ++ "_" ∧ toCamelCase k = k := by
  fin_cases h <;> exact ⟨rfl, rfl⟩

/-- Witness for C3 at the boolean attribute `checked` with value
`"true"`. -/
theorem booleanAttr_emission_witness :
    ("checked" : String) ∈ booleanAttrs ∧
      (mapAttribute ("checked", "true") = "_" ++ toCamelCase "checked" ++ "_" ∧
        toCamelCase "checked" = "checked") :=
  ⟨by decide, booleanAttr_emission "checked" "true" (by decide)⟩

/-- C4: an element whose tag name is in the fixed void-element set is
emitted as the identifier followed by the attribute fragment only, with
no child-list suffix, regardless of the children the node carries. -/
theorem voidTag_emission (name : String) (attribs : List (String × String))
    (children : List Node) (lvl : Nat) (h : name ∈ selfEnclosingTags) :
    processNode (Node.tag name attribs children) lvl = "_" ++ name ++ attrPart attribs := by
  simp only [processNode, tagAssemble]
  rw [if_pos h]

/-- Witness for C4 at an `img` element carrying a non-empty child. -/
theorem voidTag_emission_witness :
    ("img" : String) ∈ selfEnclosingTags ∧
      processNode (Node.tag "img" [("src", "x.png")] [Node.text "child"]) 0 =
        "_" ++ "img" ++ attrPart [("src", "x.png")] :=
  ⟨by decide, voidTag_emission "img" [("src", "x.png")] [Node.text "child"] 0 (by decide)⟩

theorem camelAux_cons_ne (c : Char) (rest : List Char) (hc : c ≠ '-') :
    camelAux (c :: rest) = c :: camelAux rest := by
  rw [camelAux.eq_def]
  split <;> simp_all

theorem specCamelAux_cons_ne (c : Char) (rest : List Char) (hc : c ≠ '-') :
    specCamelAux (c :: rest) = c :: specCamelAux rest := by
  rw [specCamelAux.eq_def]
  split <;> simp_all

theorem kebabOk_cons_ne (c : Char) (rest : List Char) (hc : c ≠ '-') :
    kebabOk (c :: rest) = kebabOk rest := by
  rw [kebabOk.eq_def]
  split <;> simp_all

theorem camelAux_eq_spec (l : List Char) (h : kebabOk l = true) :
    camelAux l = specCamelAux l := by
  induction l using camelAux.induct with
  | case1 => rfl
  | case2 c rest hc ih =>
    simp only [kebabOk, Bool.and_eq_true, decide_eq_true_eq] at h
    simp only [camelAux, specCamelAux, if_pos hc]
    rw [ih h.2]
  | case3 c rest hc ih =>
    simp only [kebabOk, Bool.and_eq_true, decide_eq_true_eq] at h
    exact absurd h.1 hc
  | case4 c rest h1 ih =>
    by_cases hc : c = '-'
    · subst hc
      cases rest with
      | nil => exact absurd h (by decide)
      | cons y ys => exact (h1 y ys rfl rfl).elim
    · rw [camelAux_cons_ne c rest hc, specCamelAux_cons_ne c rest hc,
        ih (by rwa [kebabOk_cons_ne c rest hc] at h)]

theorem specCamelAux_id (l : List Char) (h : '-' ∉ l) : specCamelAux l = l := by
  induction l with
  | nil => rfl
  | cons c rest ih =>
    simp only [List.mem_cons, not_or] at h
    rw [specCamelAux_cons_ne c rest (fun hcc => h.1 hcc.symm), ih h.2]

/-- C7 counterexample: the attribute name `data-X` contains a hyphen, yet
the emitted identifier keeps the hyphen (`_data-X_`) instead of the form
obtained by deleting each hyphen and uppercasing the following letter
(`_dataX_`), because the generator's regex only rewrites a hyphen
followed by a lowercase ASCII letter. -/
theorem kebabAttr_counterexample :
    mapAttribute ("data-X", "v") = "_data-X_ \"v\"" ∧
      mapAttribute ("data-X", "v") ≠
        "_" ++ specCamelCase "data-X" ++ "_ \"" ++ escapeString "v" ++ "\"" := by
  decide

/-- C7 (amended): for an attribute name outside the boolean set in which
every hyphen is immediately followed by a lowercase ASCII letter, the
emitted fragment is the camel-cased identifier (each hyphen deleted, the
following letter uppercased) wrapped as an underscore identifier and
followed by the escaped quoted value; a name without a hyphen passes
through unchanged; in particular `http-equiv` with value `X` emits
`_httpEquiv_ "escape(X)"`. -/
theorem kebabAttr_emission (name value : String) (hb : name ∉ booleanAttrs) :
    (kebabOk name.data = true →
      mapAttribute (name, value) =
        "_" ++ specCamelCase name ++ "_ \"" ++ escapeString value ++ "\"")
  ∧ (name.data.contains '-' = false →
      mapAttribute (name, value) = "_" ++ name ++ "_ \"" ++ escapeString value ++ "\"")
  ∧ mapAttribute ("http-equiv", value) =
      "_" ++ "httpEquiv" ++ "_ \"" ++ escapeString value ++ "\"" := by
  refine ⟨?_, ?_, ?_⟩
  · intro hk
    by_cases hcont : name.data.contains '-'
    · simp only [mapAttribute, hcont, if_true, if_neg hb, ite_self]
      have : specCamelCase name = toCamelCase name := by
        unfold specCamelCase toCamelCase
        rw [camelAux_eq_spec name.data hk]
      rw [this]
    · simp only [Bool.not_eq_true] at hcont
      simp only [mapAttribute, hcont, Bool.false_eq_true, if_false, if_neg hb, ite_self]
      have hmem : '-' ∉ name.data := by simpa using hcont
      have : specCamelCase name = name := by
        unfold specCamelCase
        rw [specCamelAux_id name.data hmem]
      rw [this]
  · intro hcont
    simp only [mapAttribute, hcont, Bool.false_eq_true, if_false, if_neg hb, ite_self]
  · have h1 : toCamelCase "http-equiv" = "httpEquiv" := by decide
    calc mapAttribute ("http-equiv", value)
        = "_" ++ toCamelCase "http-equiv" ++ "_ \"" ++ escapeString value ++ "\"" := rfl
      _ = "_" ++ "httpEquiv" ++ "_ \"" ++ escapeString value ++ "\"" := by rw [h1]

/-- Witness for C7 (amended) at the attribute `http-equiv` with value
`X`. -/
theorem kebabAttr_emission_witness :
    ("http-equiv" : String) ∉ booleanAttrs ∧ kebabOk ("http-equiv" : String).data = true ∧
      mapAttribute ("http-equiv", "X") =
        "_" ++ specCamelCase "http-equiv" ++ "_ \"" ++ escapeString "X" ++ "\"" :=
  ⟨by decide, by decide, (kebabAttr_emission "http-equiv" "X" (by decide)).1 (by decide)⟩

theorem string_data_eq_nil (s : String) : s.data = [] ↔ s = "" := by
  cases s with
  | mk l =>
    constructor
    · intro h
      simp only [show ("" : String) = String.mk [] from rfl]
      exact congrArg String.mk h
    · intro h
      rw [h]

theorem replaceCharL_single (c r : Char) (l : List Char) :
    replaceCharL c [r] l = l.map (fun x => if x = c then r else x) := by
  induction l with
  | nil => rfl
  | cons x xs ih =>
    by_cases hx : x = c <;> simp [replaceCharL, hx, ih]

theorem scriptChild_text_eq (d : String) :
    scriptChild (Node.text d) =
      (match claimScriptEntry (Node.text d) with
       | none => ""
       | some e => e) := by
  rw [show claimScriptEntry (Node.text d) =
    (if jsTrim d = "" then none
     else some ("_text \"" ++ quoteToApos (jsTrim d) ++ "\"")) from rfl]
  rw [show scriptChild (Node.text d) =
    (if String.mk (replaceCharL '"' [apos] (jsTrim d).data) = "" then ""
     else "_text \"" ++ String.mk (replaceCharL '"' [apos] (jsTrim d).data) ++ "\"")
    from rfl]
  rw [replaceCharL_single]
  by_cases h : jsTrim d = ""
  · rw [h]
    rfl
  · have hne : String.mk ((jsTrim d).data.map (fun x => if x = '"' then apos else x)) ≠ "" := by
      intro hc
      apply h
      rw [← string_data_eq_nil] at hc ⊢
      rw [show (String.mk ((jsTrim d).data.map (fun x => if x = '"' then apos else x))).data =
        (jsTrim d).data.map (fun x => if x = '"' then apos else x) from rfl] at hc
      exact List.map_eq_nil_iff.mp hc
    rw [if_neg hne, if_neg h]
    rfl

theorem claimEntry_ne_empty (n : Node) (e : String) (h : claimScriptEntry n = some e) :
    e ≠ "" := by
  cases n with
  | text d =>
    rw [show claimScriptEntry (Node.text d) =
      (if jsTrim d = "" then none
       else some ("_text \"" ++ quoteToApos (jsTrim d) ++ "\"")) from rfl] at h
    by_cases hd : jsTrim d = ""
    · rw [if_pos hd] at h
      exact absurd h (by simp)
    · rw [if_neg hd] at h
      have he : e = "_text \"" ++ quoteToApos (jsTrim d) ++ "\"" := by
        injection h with h1
        exact h1.symm
      subst he
      intro hc
      have hdata : (("_text \"" ++ quoteToApos (jsTrim d) ++ "\"" : String)).data = [] := by
        rw [hc]
      rw [String.data_append, String.data_append] at hdata
      simp only [List.append_eq_nil] at hdata
      exact absurd hdata.1.1 (by decide)
  | script a c => exact absurd h (by simp [claimScriptEntry])
  | tag nm a c => exact absurd h (by simp [claimScriptEntry])
  | other => exact absurd h (by simp [claimScriptEntry])

theorem scriptChildren_filterMap (children : List Node) :
    ((children.map scriptChild).filter (fun c => c ≠ "")) =
      children.filterMap claimScriptEntry := by
  induction children with
  | nil => rfl
  | cons n ns ih =>
    rw [List.map_cons, List.filter_cons, List.filterMap_cons]
    cases n with
    | text d =>
      rw [scriptChild_text_eq]
      cases he : claimScriptEntry (Node.text d) with
      | none =>
        rw [if_neg (by decide), ih]
      | some e =>
        have hne := claimEntry_ne_empty _ _ he
        rw [if_pos (by simp [hne]), ih]
    | script a c =>
      rw [show scriptChild (Node.script a c) = "" from rfl,
        show claimScriptEntry (Node.script a c) = none from rfl,
        if_neg (by decide), ih]
    | tag nm a c =>
      rw [show scriptChild (Node.tag nm a c) = "" from rfl,
        show claimScriptEntry (Node.tag nm a c) = none from rfl,
        if_neg (by decide), ih]
    | other =>
      rw [show scriptChild Node.other = "" from rfl,
        show claimScriptEntry Node.other = none from rfl,
        if_neg (by decide), ih]

/-- C2: the emission of a script node is `_script`, the attribute
fragment, and a body built from exactly the children described by
`claimScriptEntry`: every non-text child contributes nothing, a text
child whose trimmed content is empty contributes nothing, and a text
child with non-empty trimmed content contributes a `_text "..."` entry
whose content is the trimmed text transformed only by replacing each
double quote with an apostrophe; the body is `[]` when no child survives
and a bracketed list otherwise. -/
theorem scriptNode_emission (attribs : List (String × String)) (children : List Node)
    (lvl : Nat) :
    processNode (Node.script attribs children) lvl =
      "_script" ++ attrPart attribs ++ " " ++
        (if children.filterMap claimScriptEntry = [] then "[]"
         else "[ \n" ++ joinSep "\n"
           ((children.filterMap claimScriptEntry).map
             (fun e => spaces indentSize ++ e)) ++ " ]") := by
  show scriptEmit attribs children = _
  simp only [scriptEmit]
  rw [scriptChildren_filterMap]
  by_cases h : children.filterMap claimScriptEntry = []
  · rw [h, if_pos rfl]
    rfl
  · rw [if_neg h, if_pos (List.length_pos.mpr (by simp [h]))]

theorem dropWhile_all_append (p : Char → Bool) (a b : List Char)
    (h : ∀ x ∈ a, p x = true) : (a ++ b).dropWhile p = b.dropWhile p := by
  induction a with
  | nil => rfl
  | cons x xs ih =>
    rw [List.cons_append, List.dropWhile_cons, if_pos (h x (by simp))]
    exact ih (fun y hy => h y (by simp [hy]))

theorem dropWhile_append_ne_nil (p : Char → Bool) (a b : List Char)
    (h : a.dropWhile p ≠ []) : (a ++ b).dropWhile p = a.dropWhile p ++ b := by
  induction a with
  | nil => exact absurd rfl h
  | cons x xs ih =>
    by_cases hp : p x = true
    · rw [List.cons_append, List.dropWhile_cons, if_pos hp]
      rw [List.dropWhile_cons, if_pos hp] at h
      rw [List.dropWhile_cons, if_pos hp]
      exact ih h
    · rw [List.cons_append, List.dropWhile_cons, if_neg hp,
        List.dropWhile_cons, if_neg hp]
      rfl

theorem jsTrim_pad (w1 d w2 : String)
    (h1 : ∀ c ∈ w1.data, isJsWhitespace c = true)
    (h2 : ∀ c ∈ w2.data, isJsWhitespace c = true) :
    jsTrim (w1 ++ d ++ w2) = jsTrim d := by
  unfold jsTrim
  rw [String.data_append, String.data_append, List.append_assoc,
    dropWhile_all_append _ _ _ h1]
  by_cases hd : d.data.dropWhile isJsWhitespace = []
  · have hall : ∀ x ∈ d.data, isJsWhitespace x = true := by
      rw [← List.dropWhile_eq_nil_iff]
      exact hd
    rw [dropWhile_all_append _ _ _ hall, hd]
    have hw2 : w2.data.dropWhile isJsWhitespace = [] := by
      rw [List.dropWhile_eq_nil_iff]
      exact h2
    rw [hw2]
  · rw [dropWhile_append_ne_nil _ _ _ hd, List.reverse_append,
      dropWhile_all_append _ _ _ (fun x hx => h2 x (List.mem_reverse.mp hx))]

/-- C10: the text children of a script node are trimmed of surrounding
whitespace before the quote replacement, so padding a script text child
with whitespace never changes the emission of the script node. -/
theorem scriptChild_trimmed (attribs : List (String × String))
    (pre post : List Node) (d w1 w2 : String) (lvl : Nat)
    (h1 : ∀ c ∈ w1.data, isJsWhitespace c = true)
    (h2 : ∀ c ∈ w2.data, isJsWhitespace c = true) :
    processNode (Node.script attribs (pre ++ Node.text (w1 ++ d ++ w2) :: post)) lvl =
      processNode (Node.script attribs (pre ++ Node.text d :: post)) lvl := by
  have hsc : scriptChild (Node.text (w1 ++ d ++ w2)) = scriptChild (Node.text d) := by
    have h3 := jsTrim_pad w1 d w2 h1 h2
    show (let text := String.mk (replaceCharL '"' [apos] (jsTrim (w1 ++ d ++ w2)).data);
          if text = "" then "" else "_text \"" ++ text ++ "\"") = _
    rw [h3]
    rfl
  show scriptEmit _ _ = scriptEmit _ _
  unfold scriptEmit
  rw [List.map_append, List.map_cons, hsc, ← List.map_cons, ← List.map_append]

/-- Witness for C10: padding the script body `var x = 1;` with spaces and
a tab leaves the emission of the script node unchanged. -/
theorem scriptChild_trimmed_witness :
    (∀ c ∈ (" " : String).data, isJsWhitespace c = true) ∧
      (∀ c ∈ (" \t" : String).data, isJsWhitespace c = true) ∧
      processNode (Node.script [] ([] ++ Node.text (" " ++ "var x = 1;" ++ " \t") :: [])) 0 =
        processNode (Node.script [] ([] ++ Node.text "var x = 1;" :: [])) 0 :=
  ⟨by decide, by decide,
    scriptChild_trimmed [] [] [] "var x = 1;" " " " \t" 0 (by decide) (by decide)⟩

theorem processChildren_eq_map (l : List Node) (lvl : Nat) :
    processChildren l lvl = l.map (fun c => processNode c lvl) := by
  induction l with
  | nil => rfl
  | cons c cs ih => simp [processChildren, ih]

theorem tagAssemble_mid_empty (name : String) (attribs : List (String × String))
    (a b : List String) (lvl : Nat) :
    tagAssemble name attribs (a ++ "" :: b) lvl = tagAssemble name attribs (a ++ b) lvl := by
  have hcond : ¬(decide (("" : String) ≠ "") = true) := by decide
  simp only [tagAssemble]
  rw [List.filter_append, List.filter_cons, if_neg hcond, ← List.filter_append]

/-- C8: a text node whose trimmed data is empty emits nothing — it never
receives a line of its own in a parent's child list nor in the document
emission, and never causes a child list to be counted as non-empty —
while a text node with non-empty trimmed data emits exactly
`_text "<escaped trimmed data>"`. -/
theorem textNode_emission (d : String) :
    (jsTrim d = "" →
      (∀ lvl, processNode (Node.text d) lvl = "") ∧
      (∀ (name : String) (attribs : List (String × String)) (pre post : List Node)
        (lvl : Nat),
        processNode (Node.tag name attribs (pre ++ Node.text d :: post)) lvl =
          processNode (Node.tag name attribs (pre ++ post)) lvl) ∧
      (∀ pre post : List Node,
        processDOM (pre ++ Node.text d :: post) = processDOM (pre ++ post)))
  ∧ (jsTrim d ≠ "" →
      ∀ lvl, processNode (Node.text d) lvl =
        "_text \"" ++ escapeString (jsTrim d) ++ "\"") := by
  constructor
  · intro h
    have htext : ∀ lvl : Nat, processNode (Node.text d) lvl = "" := by
      intro lvl
      show textEmit d = ""
      simp only [textEmit]
      rw [if_pos h]
    refine ⟨htext, ?_, ?_⟩
    · intro name attribs pre post lvl
      show tagAssemble name attribs (processChildren (pre ++ Node.text d :: post) (lvl + 1)) lvl =
        tagAssemble name attribs (processChildren (pre ++ post) (lvl + 1)) lvl
      rw [processChildren_eq_map, processChildren_eq_map, List.map_append, List.map_append,
        List.map_cons, htext (lvl + 1), tagAssemble_mid_empty]
    · intro pre post
      have hcond : ¬(decide (("" : String) ≠ "") = true) := by decide
      unfold processDOM
      rw [List.map_append, List.map_append, List.map_cons, htext 0,
        List.filter_append, List.filter_cons, if_neg hcond, ← List.filter_append]
  · intro h lvl
    show textEmit d = _
    simp only [textEmit]
    rw [if_neg h]

/-- Witness for C8 at the whitespace-only text `" "` and the padded text
`" Hi "`. -/
theorem textNode_emission_witness :
    (jsTrim " " = "" ∧ processNode (Node.text " ") 0 = "") ∧
      (jsTrim " Hi " ≠ "" ∧ processNode (Node.text " Hi ") 0 =
        "_text \"" ++ escapeString (jsTrim " Hi ") ++ "\"") :=
  ⟨⟨by decide, ((textNode_emission " ").1 (by decide)).1 0⟩,
   ⟨by decide, (textNode_emission " Hi ").2 (by decide) 0⟩⟩

theorem emitsNode_total : ∀ (n : Node) (lvl : Nat), EmitsNode n lvl (processNode n lvl) := by
  have key : ∀ (k : Nat) (n : Node), sizeOf n < k → ∀ lvl,
      EmitsNode n lvl (processNode n lvl) := by
    intro k
    induction k with
    | zero => intro n h; exact absurd h (Nat.not_lt_zero _)
    | succ k ih =>
      intro n h lvl
      cases n with
      | text d => exact EmitsNode.text d lvl
      | script a c => exact EmitsNode.script a c lvl
      | other => exact EmitsNode.other lvl
      | tag name attribs children =>
        have hc : ∀ x ∈ children, sizeOf x < k := by
          intro x hx
          have hx1 := List.sizeOf_lt_of_mem hx
          have hx2 : sizeOf (Node.tag name attribs children) < k + 1 := h
          simp only [Node.tag.sizeOf_spec] at hx2
          omega
        have hlist : ∀ (cs : List Node), (∀ x ∈ cs, sizeOf x < k) →
            ∀ lvl2, EmitsList cs lvl2 (processChildren cs lvl2) := by
          intro cs
          induction cs with
          | nil => intro _ lvl2; exact EmitsList.nil lvl2
          | cons y ys ihy =>
            intro hys lvl2
            exact EmitsList.cons (ih y (hys y (by simp)) lvl2)
              (ihy (fun x hx => hys x (by simp [hx])) lvl2)
        exact EmitsNode.tag name attribs children lvl
          (processChildren children (lvl + 1)) (hlist children hc (lvl + 1))
  intro n lvl
  exact key (sizeOf n + 1) n (Nat.lt_succ_self _) lvl

theorem emitsList_total : ∀ (l : List Node) (lvl : Nat),
    EmitsList l lvl (processChildren l lvl) := by
  intro l lvl
  induction l with
  | nil => exact EmitsList.nil lvl
  | cons y ys ih => exact EmitsList.cons (emitsNode_total y lvl) ih

/-- C9: the recursive emission is total over trees of document, element,
text and script nodes — every node at every indent level stands in the
big-step emission relation with the string the function computes, the
empty document yields the empty output string, and node kinds outside
the four recognised ones emit nothing. -/
theorem convert_total :
    (∀ (n : Node) (lvl : Nat), EmitsNode n lvl (processNode n lvl)) ∧
      (∀ (doc : List Node) (lvl : Nat), EmitsList doc lvl (processChildren doc lvl)) ∧
      processDOM [] = "" ∧ (∀ lvl, processNode Node.other lvl = "") :=
  ⟨emitsNode_total, emitsList_total, rfl, fun _ => rfl⟩

theorem strAngleFree_append (a b : String) :
    strAngleFree (a ++ b) ↔ strAngleFree a ∧ strAngleFree b := by
  unfold strAngleFree
  rw [String.data_append]
  simp only [List.mem_append, not_or]
  tauto

theorem strAngleFree_empty : strAngleFree "" := by decide

theorem strAngleFree_spaces (n : Nat) : strAngleFree (spaces n) := by
  unfold strAngleFree spaces
  constructor <;> intro h <;> exact absurd (List.eq_of_mem_replicate h) (by decide)

theorem strAngleFree_joinSep (sep : String) (hs : strAngleFree sep) :
    ∀ (l : List String), (∀ x ∈ l, strAngleFree x) → strAngleFree (joinSep sep l) := by
  intro l
  induction l with
  | nil => exact fun _ => strAngleFree_empty
  | cons x xs ih =>
    intro hl
    cases xs with
    | nil => exact hl x (by simp)
    | cons y ys =>
      rw [show joinSep sep (x :: y :: ys) = x ++ sep ++ joinSep sep (y :: ys) from rfl,
        strAngleFree_append, strAngleFree_append]
      exact ⟨⟨hl x (by simp), hs⟩, ih (fun z hz => hl z (by simp [hz]))⟩

theorem mem_concatMap (c : Char) (f : Char → List Char) (l : List Char) :
    c ∈ concatMap f l ↔ ∃ x ∈ l, c ∈ f x := by
  induction l with
  | nil => simp [concatMap]
  | cons x xs ih => simp [concatMap, List.mem_append, ih]

theorem escSpecChar_mem (a x : Char) (ha1 : a ≠ '\\') (ha2 : a ≠ '"') (ha3 : a ≠ 'n')
    (ha4 : a ≠ 'r') (hx : a ∈ escSpecChar x) : a = x := by
  unfold escSpecChar at hx
  split_ifs at hx <;> simp at hx <;> tauto

theorem strAngleFree_escapeString (s : String) (h : strAngleFree s) :
    strAngleFree (escapeString s) := by
  unfold escapeString
  rw [escList_eq]
  refine ⟨?_, ?_⟩ <;> intro hc
  · replace hc : '<' ∈ concatMap escSpecChar s.data := hc
    rcases (mem_concatMap _ _ _).mp hc with ⟨x, hx, hfx⟩
    have := escSpecChar_mem '<' x (by decide) (by decide) (by decide) (by decide) hfx
    exact h.1 (this ▸ hx)
  · replace hc : '>' ∈ concatMap escSpecChar s.data := hc
    rcases (mem_concatMap _ _ _).mp hc with ⟨x, hx, hfx⟩
    have := escSpecChar_mem '>' x (by decide) (by decide) (by decide) (by decide) hfx
    exact h.2 (this ▸ hx)

theorem mem_jsTrim (s : String) (c : Char) (h : c ∈ (jsTrim s).data) : c ∈ s.data := by
  replace h : c ∈ ((s.data.dropWhile isJsWhitespace).reverse.dropWhile
      isJsWhitespace).reverse := h
  rw [List.mem_reverse] at h
  have h2 : c ∈ (s.data.dropWhile isJsWhitespace).reverse :=
    (List.dropWhile_sublist _).subset h
  rw [List.mem_reverse] at h2
  exact (List.dropWhile_sublist _).subset h2

theorem strAngleFree_jsTrim (s : String) (h : strAngleFree s) :
    strAngleFree (jsTrim s) :=
  ⟨fun hc => h.1 (mem_jsTrim s _ hc), fun hc => h.2 (mem_jsTrim s _ hc)⟩

theorem upperAscii_eq_or (c : Char) :
    upperAscii c = c ∨ ('A' ≤ upperAscii c ∧ upperAscii c ≤ 'Z') := by
  unfold upperAscii
  split <;> first | (left; rfl) | (right; decide)

theorem camelAux_not_mem (a : Char) (hup : ∀ c, c ≠ a → upperAscii c ≠ a) :
    ∀ (l : List Char), a ∉ l → a ∉ camelAux l := by
  intro l
  induction l using camelAux.induct with
  | case1 => exact fun _ => by simp [camelAux]
  | case2 c rest hc ih =>
    intro h
    simp only [List.mem_cons, not_or] at h
    simp only [camelAux, if_pos hc, List.mem_cons, not_or]
    exact ⟨fun heq => hup c (fun hca => h.2.1 hca.symm) heq.symm, ih h.2.2⟩
  | case3 c rest hc ih =>
    intro h
    simp only [List.mem_cons, not_or] at h
    simp only [camelAux, if_neg hc, List.mem_cons, not_or]
    exact ⟨h.1, ih (by simp only [List.mem_cons, not_or]; exact ⟨h.2.1, h.2.2⟩)⟩
  | case4 c rest h1 ih =>
    intro h
    simp only [List.mem_cons, not_or] at h
    simp only [camelAux, List.mem_cons, not_or]
    exact ⟨h.1, ih h.2⟩

theorem strAngleFree_toCamelCase (s : String) (h : strAngleFree s) :
    strAngleFree (toCamelCase s) := by
  have hup : ∀ (a : Char), a = '<' ∨ a = '>' → ∀ c, c ≠ a → upperAscii c ≠ a := by
    intro a ha c hc
    rcases upperAscii_eq_or c with h1 | h1
    · rw [h1]; exact hc
    · intro heq
      rcases ha with ha | ha <;>
        (subst ha; rw [heq] at h1; exact absurd h1 (by decide))
  exact ⟨camelAux_not_mem '<' (hup '<' (Or.inl rfl)) s.data h.1,
    camelAux_not_mem '>' (hup '>' (Or.inr rfl)) s.data h.2⟩

theorem mem_replaceCharL (a ch : Char) (r l : List Char) (h : a ∈ replaceCharL ch r l) :
    a ∈ r ∨ a ∈ l := by
  induction l with
  | nil => simp [replaceCharL] at h
  | cons x xs ih =>
    simp only [replaceCharL, List.mem_append] at h
    rcases h with h | h
    · by_cases hx : x = ch
      · rw [if_pos hx] at h
        exact Or.inl h
      · rw [if_neg hx] at h
        simp at h
        exact Or.inr (by simp [h])
    · rcases ih h with h2 | h2
      · exact Or.inl h2
      · exact Or.inr (by simp [h2])

theorem strAngleFree_mapAttribute (kv : String × String)
    (h1 : strAngleFree kv.1) (h2 : strAngleFree kv.2) :
    strAngleFree (mapAttribute kv) := by
  have hkey : strAngleFree (if kv.1.data.contains '-' then toCamelCase kv.1 else kv.1) := by
    split
    · exact strAngleFree_toCamelCase kv.1 h1
    · exact h1
  simp only [mapAttribute]
  revert hkey
  generalize (if kv.1.data.contains '-' then toCamelCase kv.1 else kv.1) = attrKey
  intro hkey
  split_ifs
  · simp only [strAngleFree_append]
    exact ⟨⟨by decide, hkey⟩, by decide⟩
  · simp only [strAngleFree_append]
    exact ⟨⟨⟨⟨by decide, hkey⟩, by decide⟩, strAngleFree_escapeString kv.2 h2⟩, by decide⟩
  · simp only [strAngleFree_append]
    exact ⟨⟨⟨⟨by decide, hkey⟩, by decide⟩, strAngleFree_escapeString kv.2 h2⟩, by decide⟩

theorem strAngleFree_attrPart (attribs : List (String × String)) (h : attrsAngleFree attribs) :
    strAngleFree (attrPart attribs) := by
  simp only [attrPart, mapAttributes]
  split_ifs
  · simp only [strAngleFree_append]
    refine ⟨⟨by decide, strAngleFree_joinSep "; " (by decide) _ ?_⟩, by decide⟩
    intro x hx
    rcases List.mem_map.mp hx with ⟨kv, hkv, rfl⟩
    exact strAngleFree_mapAttribute kv (h kv hkv).1 (h kv hkv).2
  · decide

theorem strAngleFree_textEmit (d : String) (h : strAngleFree d) :
    strAngleFree (textEmit d) := by
  simp only [textEmit]
  split_ifs
  · exact strAngleFree_empty
  · simp only [strAngleFree_append]
    exact ⟨⟨by decide, strAngleFree_escapeString _ (strAngleFree_jsTrim d h)⟩, by decide⟩

theorem strAngleFree_scriptChild (n : Node) (h : NodeAngleFree n) :
    strAngleFree (scriptChild n) := by
  cases n with
  | text d =>
    have hd : strAngleFree d := by cases h with | text hd => exact hd
    show strAngleFree
      (if String.mk (replaceCharL '"' [apos] (jsTrim d).data) = "" then ""
       else "_text \"" ++ String.mk (replaceCharL '"' [apos] (jsTrim d).data) ++ "\"")
    split_ifs
    · exact strAngleFree_empty
    · simp only [strAngleFree_append]
      refine ⟨⟨by decide, ⟨?_, ?_⟩⟩, by decide⟩ <;> intro hc
      · replace hc : '<' ∈ replaceCharL '"' [apos] (jsTrim d).data := hc
        rcases mem_replaceCharL _ _ _ _ hc with h2 | h2
        · exact absurd h2 (by decide)
        · exact hd.1 (mem_jsTrim d _ h2)
      · replace hc : '>' ∈ replaceCharL '"' [apos] (jsTrim d).data := hc
        rcases mem_replaceCharL _ _ _ _ hc with h2 | h2
        · exact absurd h2 (by decide)
        · exact hd.2 (mem_jsTrim d _ h2)
  | script a c => exact strAngleFree_empty
  | tag nm a c => exact strAngleFree_empty
  | other => exact strAngleFree_empty

theorem strAngleFree_scriptEmit (attribs : List (String × String)) (children : List Node)
    (ha : attrsAngleFree attribs) (hc : ∀ c ∈ children, NodeAngleFree c) :
    strAngleFree (scriptEmit attribs children) := by
  simp only [scriptEmit]
  have hkids : ∀ x ∈ ((children.map scriptChild).filter (fun c => c ≠ "")).map
      (fun c => spaces indentSize ++ c), strAngleFree x := by
    intro x hx
    rcases List.mem_map.mp hx with ⟨y, hy, rfl⟩
    have hy1 := (List.mem_filter.mp hy).1
    rcases List.mem_map.mp hy1 with ⟨c, hcm, rfl⟩
    simp only [strAngleFree_append]
    exact ⟨strAngleFree_spaces _, strAngleFree_scriptChild c (hc c hcm)⟩
  split_ifs
  · simp only [strAngleFree_append]
    exact ⟨⟨⟨by decide, strAngleFree_attrPart attribs ha⟩, by decide⟩,
      ⟨⟨by decide, strAngleFree_joinSep "\n" (by decide) _ hkids⟩, by decide⟩⟩
  · simp only [strAngleFree_append]
    exact ⟨⟨⟨by decide, strAngleFree_attrPart attribs ha⟩, by decide⟩, by decide⟩

theorem strAngleFree_tagAssemble (name : String) (attribs : List (String × String))
    (outs : List String) (lvl : Nat) (hn : strAngleFree name)
    (ha : attrsAngleFree attribs) (ho : ∀ x ∈ outs, strAngleFree x) :
    strAngleFree (tagAssemble name attribs outs lvl) := by
  simp only [tagAssemble]
  have helem : strAngleFree "_" ∧ strAngleFree name ∧ strAngleFree (attrPart attribs) :=
    ⟨by decide, hn, strAngleFree_attrPart attribs ha⟩
  have hkids : ∀ x ∈ (outs.filter (fun c => c ≠ "")).map
      (fun c => spaces ((lvl + 2) * indentSize) ++ c), strAngleFree x := by
    intro x hx
    rcases List.mem_map.mp hx with ⟨y, hy, rfl⟩
    have hy1 := (List.mem_filter.mp hy).1
    simp only [strAngleFree_append]
    exact ⟨strAngleFree_spaces _, ho y hy1⟩
  split_ifs
  · simp only [strAngleFree_append]
    exact ⟨⟨helem.1, helem.2.1⟩, helem.2.2⟩
  · simp only [strAngleFree_append]
    exact ⟨⟨⟨⟨⟨⟨⟨helem.1, helem.2.1⟩, helem.2.2⟩, by decide⟩, strAngleFree_spaces _⟩,
      by decide⟩, strAngleFree_joinSep "\n" (by decide) _ hkids⟩, by decide⟩
  · simp only [strAngleFree_append]
    exact ⟨⟨⟨helem.1, helem.2.1⟩, helem.2.2⟩, by decide⟩

theorem processNode_angleFree (n : Node) (h : NodeAngleFree n) :
    ∀ lvl, strAngleFree (processNode n lvl) := by
  induction h with
  | text hd => exact fun lvl => strAngleFree_textEmit _ hd
  | script ha hc => exact fun lvl => strAngleFree_scriptEmit _ _ ha hc
  | tag hn ha hc ih =>
    intro lvl
    show strAngleFree (tagAssemble _ _ (processChildren _ (lvl + 1)) lvl)
    apply strAngleFree_tagAssemble _ _ _ _ hn ha
    intro x hx
    rw [processChildren_eq_map] at hx
    rcases List.mem_map.mp hx with ⟨c, hcmem, rfl⟩
    exact ih c hcmem (lvl + 1)
  | other => exact fun lvl => strAngleFree_empty

/-- C1 counterexample: the text node `a < b` — which the parser can
produce, for instance from the entity `&lt;` — is emitted with its angle
bracket intact, so the output of the conversion is not angle-bracket
free for every input tree. -/
theorem convert_angleFree_counterexample :
    ¬ strAngleFree (processDOM [Node.text "a < b"]) := by decide

/-- C1 (amended): the DSL syntax emitted by the generator introduces no
angle bracket of its own — for every input tree none of whose strings
(text data, tag names, attribute names, attribute values) contains `<`
or `>`, the converted output contains no `<` and no `>` either. -/
theorem convert_angleFree (doc : List Node) (h : ∀ n ∈ doc, NodeAngleFree n) :
    strAngleFree (processDOM doc) := by
  unfold processDOM
  apply strAngleFree_joinSep "\n" (by decide)
  intro x hx
  have hx1 := (List.mem_filter.mp hx).1
  rcases List.mem_map.mp hx1 with ⟨n, hn, rfl⟩
  exact processNode_angleFree n (h n hn) 0

/-- Witness for C1 (amended) at a `div` element with a class attribute
wrapping a text child. -/
theorem convert_angleFree_witness :
    strAngleFree (processDOM [Node.tag "div" [("class", "a")] [Node.text "Hi"]]) :=
  convert_angleFree _ (by
    intro n hn
    simp only [List.mem_singleton] at hn
    subst hn
    refine NodeAngleFree.tag (by decide) (by decide) ?_
    intro c hc
    simp only [List.mem_singleton] at hc
    subst hc
    exact NodeAngleFree.text (by decide))

end HtmlToFalco
